import Mathlib

/-!
Verification of the turntable render orchestrator in
src/cli/render_360_directory.py.

The script works inside one flat directory at a time, so a directory is
modelled as an association list from file name to file content.  Names
are lists of characters, contents are lists of bytes.  The MD5 digest of
calculate_md5 is an external library call and is modelled as an explicit
function parameter from contents to names; nothing below assumes it is
injective.  Floating point arithmetic of the camera computation is
embedded as exact real arithmetic, and the exact rational value 10 taken
by the float expression 360 / 36 makes the rounding in the angle
computation exact as well.
-/

namespace Render360

/-- File names inside one directory, as character lists. -/
abbrev FName := List Char

/-- File contents, as byte lists. -/
abbrev Content := List Nat

/-- One directory of files: an association list from name to content. -/
abbrev FS := List (FName × Content)

/-- Lookup of a file by name (reading a file, or os.path.exists). -/
def fsGet : FS → FName → Option Content
  | [], _ => none
  | (k, v) :: rest, n => if k = n then some v else fsGet rest n

/-- Existence check, mirroring os.path.exists. -/
def fsExists (fs : FS) (n : FName) : Bool := (fsGet fs n).isSome

/-- Deletion of a file, mirroring os.remove. -/
def fsRemove : FS → FName → FS
  | [], _ => []
  | (k, v) :: rest, n => if k = n then fsRemove rest n else (k, v) :: fsRemove rest n

/-- Writing a file under a name (the target of os.rename, or the render
call writing a frame): any previous binding of that name is replaced. -/
def fsSet (fs : FS) (n : FName) (c : Content) : FS := (n, c) :: fsRemove fs n

/-- Test used by the splitext embedding: true on every character other
than the dot. -/
def isNotDot (c : Char) : Bool := c != '.'

/-- Test used by the splitext embedding: true exactly on the dot. -/
def isDot (c : Char) : Bool := c == '.'

/-- Embedding of os.path.splitext on a bare file name: the name is split
at its last dot into base and extension (the extension keeps the dot),
except that a name whose part before the last dot consists of dots only
is not split at all.  The scrutinee walks the reversed name up to the
last dot; base holds the reversed part before that dot, and a list is
all dots exactly when its reverse is. -/
def splitext (s : FName) : FName × FName :=
  match s.reverse.dropWhile isNotDot with
  | [] => (s, [])
  | _ :: base =>
    if base.all isDot then (s, [])
    else (base.reverse, '.' :: (s.reverse.takeWhile isNotDot).reverse)

/-- Embedding of the identity-resolution prefix of process_file
(src/cli/render_360_directory.py lines 29-64), the part of the function
that runs before the scene is touched.  The function recurses on itself
after every rename, delete or no-op restart; the recursion is not
structurally decreasing on the filesystem (a directory can make it loop
forever), so it takes explicit fuel and returns none when the fuel runs
out or the file at the given path does not exist.  A some result is a
normal exit into the rendering part of process_file, carrying the
directory state and the path the rest of the function keeps using. -/
def process_file_resolve (hashFn : Content → FName) : Nat → FS → FName → Option (FS × FName)
  | 0, _, _ => none
  | fuel + 1, fs, path =>
    match fsGet fs path with
    | none => none
    | some content =>
      if (splitext path).1 = hashFn content then
        some (fs, path)
      else if hashFn content ++ (splitext path).2 = path then
        process_file_resolve hashFn fuel fs path
      else
        match fsGet fs (hashFn content ++ (splitext path).2) with
        | some existing =>
          if hashFn existing = hashFn content then
            process_file_resolve hashFn fuel (fsRemove fs path)
              (hashFn content ++ (splitext path).2)
          else
            process_file_resolve hashFn fuel
              (fsSet (fsRemove fs path)
                (hashFn content ++ (splitext path).2 ++ ['.', 'n', 'e', 'w']) content)
              (hashFn content ++ (splitext path).2 ++ ['.', 'n', 'e', 'w'])
        | none =>
          process_file_resolve hashFn fuel
            (fsSet (fsRemove fs path) (hashFn content ++ (splitext path).2) content)
            (hashFn content ++ (splitext path).2)

lemma fsGet_fsRemove (fs : FS) (n m : FName) :
    fsGet (fsRemove fs n) m = if m = n then none else fsGet fs m := by
  induction fs with
  | nil => simp [fsRemove, fsGet]
  | cons kv rest ih =>
    obtain ⟨k, v⟩ := kv
    simp only [fsRemove, fsGet]
    by_cases hkn : k = n
    · rw [if_pos hkn, ih]
      by_cases hmn : m = n
      · rw [if_pos hmn, if_pos hmn]
      · rw [if_neg hmn, if_neg hmn, if_neg (hkn ▸ fun h => hmn h.symm)]
    · rw [if_neg hkn]
      simp only [fsGet]
      by_cases hkm : k = m
      · rw [if_pos hkm, if_pos hkm, if_neg (hkm ▸ hkn)]
      · rw [if_neg hkm, if_neg hkm, ih]

lemma fsGet_fsSet (fs : FS) (n : FName) (c : Content) (m : FName) :
    fsGet (fsSet fs n c) m = if m = n then some c else fsGet fs m := by
  by_cases hmn : m = n
  · simp [fsSet, fsGet, hmn]
  · have hnm : n ≠ m := fun h => hmn h.symm
    simp [fsSet, fsGet, hnm, fsGet_fsRemove, hmn]

lemma takeWhile_append_all {p : Char → Bool} {l1 l2 : List Char}
    (h : ∀ a ∈ l1, p a = true) :
    (l1 ++ l2).takeWhile p = l1 ++ l2.takeWhile p := by
  induction l1 with
  | nil => simp
  | cons a l ih =>
    have ha : p a = true := h a (List.mem_cons_self a l)
    simp only [List.cons_append, List.takeWhile_cons_of_pos ha, List.cons.injEq, true_and]
    exact ih fun b hb => h b (List.mem_cons_of_mem a hb)

lemma dropWhile_append_all {p : Char → Bool} {l1 l2 : List Char}
    (h : ∀ a ∈ l1, p a = true) :
    (l1 ++ l2).dropWhile p = l2.dropWhile p := by
  induction l1 with
  | nil => simp
  | cons a l ih =>
    have ha : p a = true := h a (List.mem_cons_self a l)
    simp only [List.cons_append, List.dropWhile_cons_of_pos ha]
    exact ih fun b hb => h b (List.mem_cons_of_mem a hb)

lemma dropWhile_all {p : Char → Bool} {l : List Char} (h : ∀ a ∈ l, p a = true) :
    l.dropWhile p = [] := by
  induction l with
  | nil => rfl
  | cons a t ih =>
    rw [List.dropWhile_cons_of_pos (h a (List.mem_cons_self a t))]
    exact ih fun b hb => h b (List.mem_cons_of_mem a hb)

lemma dropWhile_head_false {p : Char → Bool} :
    ∀ {l : List Char} {d : Char} {base : List Char},
      l.dropWhile p = d :: base → p d = false := by
  intro l
  induction l with
  | nil => intro d base h; simp at h
  | cons a t ih =>
    intro d base h
    by_cases ha : p a = true
    · rw [List.dropWhile_cons_of_pos ha] at h
      exact ih h
    · rw [List.dropWhile_cons_of_neg ha] at h
      cases h
      exact Bool.eq_false_iff.mpr ha

lemma isNotDot_true_iff (c : Char) : isNotDot c = true ↔ c ≠ '.' := by
  simp [isNotDot]

lemma isNotDot_false_iff (c : Char) : isNotDot c = false ↔ c = '.' := by
  simp [isNotDot]

/-- The two parts returned by splitext reassemble into the original name. -/
lemma splitext_append (s : FName) : (splitext s).1 ++ (splitext s).2 = s := by
  unfold splitext
  rcases hdrop : s.reverse.dropWhile isNotDot with _ | ⟨d, base⟩
  · simp
  · have hd : d = '.' := (isNotDot_false_iff d).mp (dropWhile_head_false hdrop)
    by_cases hall : (base.all isDot) = true
    · simp [hall]
    · have hsplit : s.reverse.takeWhile isNotDot ++ (d :: base) = s.reverse := by
        rw [← hdrop, List.takeWhile_append_dropWhile]
      have h2 := congrArg List.reverse hsplit
      simp only [List.reverse_append, List.reverse_cons, List.reverse_reverse] at h2
      simp only [hall, if_false]
      subst hd
      simpa [List.append_assoc] using h2

/-- A name without dots is not split: its base is itself, its extension empty. -/
lemma splitext_no_dot (s : FName) (h : ∀ c ∈ s, c ≠ '.') : splitext s = (s, []) := by
  unfold splitext
  have hdrop : s.reverse.dropWhile isNotDot = [] := by
    refine dropWhile_all ?_
    intro a ha
    exact (isNotDot_true_iff a).mpr (h a (List.mem_reverse.mp ha))
  simp [hdrop]

/-- Splitting a name assembled from a dot-free nonempty base and either an
empty extension or a dot followed by a dot-free tail recovers the parts. -/
lemma splitext_base_ext (h e : FName) (hne : h ≠ []) (hnd : ∀ c ∈ h, c ≠ '.')
    (he : e = [] ∨ ∃ t, e = '.' :: t ∧ ∀ c ∈ t, c ≠ '.') :
    splitext (h ++ e) = (h, e) := by
  rcases he with rfl | ⟨t, rfl, ht⟩
  · rw [List.append_nil]
    exact splitext_no_dot h hnd
  · unfold splitext
    have hrev : (h ++ '.' :: t).reverse = t.reverse ++ '.' :: h.reverse := by
      simp
    have htrev : ∀ a ∈ t.reverse, isNotDot a = true := by
      intro a ha
      exact (isNotDot_true_iff a).mpr (ht a (List.mem_reverse.mp ha))
    have hndot : ¬(isNotDot '.' = true) := by simp [isNotDot]
    have hdrop : (h ++ '.' :: t).reverse.dropWhile isNotDot = '.' :: h.reverse := by
      rw [hrev, dropWhile_append_all htrev, List.dropWhile_cons_of_neg hndot]
    have htake : (h ++ '.' :: t).reverse.takeWhile isNotDot = t.reverse := by
      rw [hrev, takeWhile_append_all htrev, List.takeWhile_cons_of_neg hndot,
        List.append_nil]
    rw [hdrop]
    have hnall : ¬((h.reverse.all isDot) = true) := by
      simp only [List.all_eq_true]
      intro hall
      obtain ⟨a, ha⟩ := List.exists_mem_of_ne_nil h hne
      have := hall a (List.mem_reverse.mpr ha)
      exact hnd a ha (by simpa [isDot] using this)
    simp only [hnall, if_false, htake]
    simp

/-- The extension produced by splitext is empty or a dot followed by a
dot-free tail. -/
lemma splitext_ext_shape (s : FName) :
    (splitext s).2 = [] ∨ ∃ t, (splitext s).2 = '.' :: t ∧ ∀ c ∈ t, c ≠ '.' := by
  unfold splitext
  rcases hdrop : s.reverse.dropWhile isNotDot with _ | ⟨d, base⟩
  · left; rfl
  · by_cases hall : (base.all isDot) = true
    · left; simp [hall]
    · right
      refine ⟨(s.reverse.takeWhile isNotDot).reverse, by simp [hall], ?_⟩
      intro c hc
      have := List.mem_takeWhile_imp (List.mem_reverse.mp hc)
      exact (isNotDot_true_iff c).mp this

/-- Claim C2.  Every normal exit of the identity-resolution step of
process_file ends with a path that the directory maps to some content
whose hash equals the path's base name: the postcondition "returned
path's base name equals the hash of its content" holds on every some
result, for every hash function, established by the recursive re-check
rather than assumed after a rename. -/
theorem resolve_basename_eq_hash (hashFn : Content → FName) :
    ∀ (fuel : Nat) (fs : FS) (path : FName) (fs' : FS) (path' : FName),
      process_file_resolve hashFn fuel fs path = some (fs', path') →
      ∃ c, fsGet fs' path' = some c ∧ (splitext path').1 = hashFn c := by
  intro fuel
  induction fuel with
  | zero => intro fs path fs' path' h; simp [process_file_resolve] at h
  | succ n ih =>
    intro fs path fs' path' h
    unfold process_file_resolve at h
    rcases hget : fsGet fs path with _ | c
    · rw [hget] at h; simp at h
    · rw [hget] at h
      simp only at h
      by_cases hterm : (splitext path).1 = hashFn c
      · rw [if_pos hterm] at h
        obtain ⟨hfs, hpath⟩ := by simpa using h
        exact ⟨c, hfs ▸ hpath ▸ hget, hpath ▸ hterm⟩
      · rw [if_neg hterm] at h
        by_cases hsame : hashFn c ++ (splitext path).2 = path
        · rw [if_pos hsame] at h
          exact ih _ _ _ _ h
        · rw [if_neg hsame] at h
          rcases htgt : fsGet fs (hashFn c ++ (splitext path).2) with _ | ex
          · rw [htgt] at h
            exact ih _ _ _ _ h
          · rw [htgt] at h
            simp only at h
            by_cases hex : hashFn ex = hashFn c
            · rw [if_pos hex] at h
              exact ih _ _ _ _ h
            · rw [if_neg hex] at h
              exact ih _ _ _ _ h

/-- Witness for C2: a file named by two letters whose hash function maps
its content to that same two-letter name exits the resolver at once, and
the postcondition evaluates to true there. -/
theorem resolve_basename_eq_hash_witness :
    ∃ c, fsGet [([ 'a', 'b'], [1])] ['a', 'b'] = some c ∧
      (splitext ['a', 'b']).1 = (fun _ : Content => ['a', 'b']) c :=
  resolve_basename_eq_hash (fun _ => ['a', 'b']) 1 [([ 'a', 'b'], [1])] ['a', 'b']
    [([ 'a', 'b'], [1])] ['a', 'b'] (by decide)

/-- Number of turntable frames, fixed to 36 by the source (line 256). -/
def steps : Nat := 36

/-- Rotation angle of frame i, embedding round((360 / steps) * i) from
line 261.  The float expression 360 / 36 has the exact value 10, so the
float computation agrees with the exact rational one and round is applied
to an integer, where every tie-breaking convention coincides. -/
def angle_of (i : Nat) : Nat := (round ((360 / (steps : ℚ)) * i)).toNat

/-- Decimal digits of a number left-padded with zeros to width three,
embedding the 03d format specifier of line 262. -/
def pad3 (n : Nat) : FName :=
  List.replicate (3 - (Nat.toDigits 10 n).length) '0' ++ Nat.toDigits 10 n

/-- Output file name of one frame, embedding line 262: the model name
(the content hash after resolution), an underscore, the padded angle and
the png suffix. -/
def frame_name (model_name : FName) (angle : Nat) : FName :=
  model_name ++ '_' :: (pad3 angle ++ ['.', 'p', 'n', 'g'])

/-- All frame names of one model in loop order. -/
def frame_names (model_name : FName) : List FName :=
  (List.range steps).map fun i => frame_name model_name (angle_of i)

/-- Outcome of the render loop of process_file: the renders directory
after the loop, the two counters printed in the final statistics, and
whether the loop ran to completion (ok = false is the early return False
of line 283 after a render exception; the frames written before the
failure stay on disk). -/
structure RenderResult where
  fs : FS
  rendered : Nat
  skipped : Nat
  ok : Bool
deriving DecidableEq

/-- Embedding of the turntable render loop of process_file (lines
256-283) over the list of remaining frame indices.  The external
single-frame render call is a parameter from angle to the produced image
bytes, with none standing for a raised exception; a frame whose output
path already exists is skipped without re-rendering. -/
def render_loop_aux (render : Nat → Option Content) (model_name : FName) :
    List Nat → FS → Nat → Nat → RenderResult
  | [], fs, tot, skip => ⟨fs, tot, skip, true⟩
  | i :: rest, fs, tot, skip =>
    if fsExists fs (frame_name model_name (angle_of i)) then
      render_loop_aux render model_name rest fs tot (skip + 1)
    else
      match render (angle_of i) with
      | some img =>
        render_loop_aux render model_name rest
          (fsSet fs (frame_name model_name (angle_of i)) img) (tot + 1) skip
      | none => ⟨fs, tot, skip, false⟩

/-- One full run of the turntable render loop over the 36 frame indices,
starting with zeroed counters, on a given renders directory. -/
def render_loop (render : Nat → Option Content) (model_name : FName) (fs : FS) :
    RenderResult :=
  render_loop_aux render model_name (List.range steps) fs 0 0

lemma angle_of_eq (i : Nat) : angle_of i = 10 * i := by
  have h1 : (360 / (steps : ℚ)) * i = ((10 * i : ℕ) : ℚ) := by
    push_cast
    rw [show ((steps : ℚ)) = 36 by norm_num [steps]]
    ring_nf
  rw [angle_of, h1, round_natCast]
  exact Int.toNat_natCast _

lemma fsExists_fsSet (fs : FS) (n : FName) (c : Content) (m : FName) :
    fsExists (fsSet fs n c) m = (m = n || fsExists fs m) := by
  by_cases hmn : m = n
  · simp [fsExists, fsGet_fsSet, hmn]
  · simp [fsExists, fsGet_fsSet, hmn]

/-- Frames existing before an iteration of the loop still exist after it. -/
lemma render_loop_aux_mono (render : Nat → Option Content) (model_name : FName) :
    ∀ (idxs : List Nat) (fs : FS) (tot skip : Nat) (n : FName),
      fsExists fs n = true →
      fsExists (render_loop_aux render model_name idxs fs tot skip).fs n = true := by
  intro idxs
  induction idxs with
  | nil => intro fs tot skip n h; exact h
  | cons i rest ih =>
    intro fs tot skip n h
    simp only [render_loop_aux]
    by_cases hex : fsExists fs (frame_name model_name (angle_of i)) = true
    · rw [if_pos hex]
      exact ih fs tot (skip + 1) n h
    · rw [if_neg hex]
      rcases hr : render (angle_of i) with _ | img

      · exact h
      · exact ih _ (tot + 1) skip n (by rw [fsExists_fsSet, h, Bool.or_true])

/-- After a loop run that completed, the frame of every processed index
exists in the resulting directory. -/
lemma render_loop_aux_covers (render : Nat → Option Content) (model_name : FName) :
    ∀ (idxs : List Nat) (fs : FS) (tot skip : Nat),
      (render_loop_aux render model_name idxs fs tot skip).ok = true →
      ∀ i ∈ idxs,
        fsExists (render_loop_aux render model_name idxs fs tot skip).fs
          (frame_name model_name (angle_of i)) = true := by
  intro idxs
  induction idxs with
  | nil => intro fs tot skip _ i hi; simp at hi
  | cons j rest ih =>
    intro fs tot skip hok i hi
    simp only [render_loop_aux] at hok ⊢
    by_cases hex : fsExists fs (frame_name model_name (angle_of j)) = true
    · rw [if_pos hex] at hok ⊢
      rcases List.mem_cons.mp hi with rfl | hmem
      · exact render_loop_aux_mono render model_name rest fs tot (skip + 1) _ hex
      · exact ih fs tot (skip + 1) hok i hmem
    · rw [if_neg hex] at hok ⊢
      rcases hr : render (angle_of j) with _ | img
      · rw [hr] at hok
        exact absurd hok Bool.false_ne_true
      · rw [hr] at hok
        rcases List.mem_cons.mp hi with rfl | hmem
        · refine render_loop_aux_mono render model_name rest _ (tot + 1) skip _ ?_
          rw [fsExists_fsSet]
          simp
        · exact ih _ (tot + 1) skip hok i hmem

/-- When every frame of the remaining indices already exists, the loop
only counts skips and leaves the directory untouched. -/
lemma render_loop_aux_skip_all (render : Nat → Option Content) (model_name : FName) :
    ∀ (idxs : List Nat) (fs : FS) (tot skip : Nat),
      (∀ i ∈ idxs, fsExists fs (frame_name model_name (angle_of i)) = true) →
      render_loop_aux render model_name idxs fs tot skip =
        ⟨fs, tot, skip + idxs.length, true⟩ := by
  intro idxs
  induction idxs with
  | nil => intro fs tot skip _; simp [render_loop_aux]
  | cons j rest ih =>
    intro fs tot skip hall
    have hj := hall j (List.mem_cons_self j rest)
    simp only [render_loop_aux, if_pos hj]
    rw [ih fs tot (skip + 1) fun i hi => hall i (List.mem_cons_of_mem j hi)]
    simp only [List.length_cons]
    congr 1
    omega

/-- Claim C1.  If a run of the turntable render loop over a renders
directory completed (every frame was rendered or skipped, so every
derived output path now exists), then a second run with the same model
hash, step count and directory renders zero new frames, takes the skip
branch on all 36 iterations, and returns the directory unchanged. -/
theorem render_loop_second_run_skips_all (render : Nat → Option Content)
    (model_name : FName) (fs0 fs1 : FS) (t s : Nat)
    (h : render_loop render model_name fs0 = ⟨fs1, t, s, true⟩) :
    render_loop render model_name fs1 = ⟨fs1, 0, steps, true⟩ := by
  have hall : ∀ i ∈ List.range steps,
      fsExists fs1 (frame_name model_name (angle_of i)) = true := by
    intro i hi
    have hok : (render_loop_aux render model_name (List.range steps) fs0 0 0).ok = true := by
      rw [show render_loop_aux render model_name (List.range steps) fs0 0 0 =
        render_loop render model_name fs0 from rfl, h]
    have := render_loop_aux_covers render model_name (List.range steps) fs0 0 0 hok i hi
    rw [show render_loop_aux render model_name (List.range steps) fs0 0 0 =
      render_loop render model_name fs0 from rfl, h] at this
    exact this
  rw [render_loop, render_loop_aux_skip_all render model_name (List.range steps) fs1 0 0 hall]
  simp

lemma fsExists_map_self (f : Nat → FName) (c : Content) :
    ∀ (l : List Nat) (j : Nat), j ∈ l →
      fsExists (l.map fun i => (f i, c)) (f j) = true := by
  intro l
  induction l with
  | nil => intro j hj; simp at hj
  | cons a t ih =>
    intro j hj
    simp only [List.map_cons, fsExists, fsGet]
    by_cases hfa : f a = f j
    · rw [if_pos hfa]
      rfl
    · rw [if_neg hfa]
      rcases List.mem_cons.mp hj with rfl | hmem
      · exact absurd rfl hfa
      · exact ih j hmem

/-- Witness for C1: a three-letter model over a directory that already
holds all 36 frames satisfies the completed-first-run hypothesis (the
first run skips everything), and the theorem yields the
unchanged-second-run conclusion there. -/
theorem render_loop_second_run_skips_all_witness :
    render_loop (fun _ => some [0]) ['a', 'b', 'c']
        ((List.range 36).map fun i => (frame_name ['a', 'b', 'c'] (angle_of i), [0])) =
      ⟨(List.range 36).map fun i => (frame_name ['a', 'b', 'c'] (angle_of i), [0]),
        0, steps, true⟩ := by
  have hall : ∀ i ∈ List.range steps,
      fsExists ((List.range 36).map fun i => (frame_name ['a', 'b', 'c'] (angle_of i), [0]))
        (frame_name ['a', 'b', 'c'] (angle_of i)) = true := fun i hi =>
    fsExists_map_self (fun i => frame_name ['a', 'b', 'c'] (angle_of i)) [0]
      (List.range 36) i hi
  have h1 : render_loop (fun _ => some [0]) ['a', 'b', 'c']
      ((List.range 36).map fun i => (frame_name ['a', 'b', 'c'] (angle_of i), [0])) =
      ⟨(List.range 36).map fun i => (frame_name ['a', 'b', 'c'] (angle_of i), [0]),
        0, 36, true⟩ := by
    rw [render_loop, render_loop_aux_skip_all (fun _ => some [0]) ['a', 'b', 'c']
      (List.range steps) _ 0 0 hall]
    simp [steps]
  exact render_loop_second_run_skips_all (fun _ => some [0]) ['a', 'b', 'c'] _ _ 0 36 h1

/-- Distinct frame indices give distinct frame file names: the padded
angle blocks are pairwise distinct over the 36 loop indices, and the
name around them is a fixed prefix and suffix. -/
lemma frame_names_nodup (model_name : FName) : (frame_names model_name).Nodup := by
  have hpads : ((List.range steps).map fun i => pad3 (angle_of i)).Nodup := by
    simp only [angle_of_eq]
    decide
  have hinj : Function.Injective
      (fun p : FName => model_name ++ '_' :: (p ++ ['.', 'p', 'n', 'g'])) := by
    intro p1 p2 h
    simp only at h
    have h1 := List.append_cancel_left h
    have h2 : p1 ++ ['.', 'p', 'n', 'g'] = p2 ++ ['.', 'p', 'n', 'g'] :=
      (List.cons.injEq _ _ _ _ ▸ h1).2
    exact List.append_cancel_right h2
  have hmap : frame_names model_name =
      ((List.range steps).map fun i => pad3 (angle_of i)).map
        (fun p : FName => model_name ++ '_' :: (p ++ ['.', 'p', 'n', 'g'])) := by
    rw [List.map_map]
    rfl
  rw [hmap]
  exact hpads.map hinj

/-- A completed run of the render loop with every render call succeeding
ends in the ok state, and its final directory holds a name exactly when
the start directory held it or it is the frame name of a processed
index. -/
lemma render_loop_aux_success (render : Nat → Option Content) (model_name : FName)
    (hr : ∀ a, (render a).isSome = true) :
    ∀ (idxs : List Nat) (fs : FS) (tot skip : Nat),
      (render_loop_aux render model_name idxs fs tot skip).ok = true ∧
      ∀ n, fsExists (render_loop_aux render model_name idxs fs tot skip).fs n = true ↔
        (fsExists fs n = true ∨ ∃ i ∈ idxs, n = frame_name model_name (angle_of i)) := by
  intro idxs
  induction idxs with
  | nil =>
    intro fs tot skip
    refine ⟨rfl, fun n => ?_⟩
    simp [render_loop_aux]
  | cons j rest ih =>
    intro fs tot skip
    simp only [render_loop_aux]
    by_cases hex : fsExists fs (frame_name model_name (angle_of j)) = true
    · rw [if_pos hex]
      refine ⟨(ih fs tot (skip + 1)).1, fun n => ?_⟩
      rw [(ih fs tot (skip + 1)).2 n]
      simp only [List.mem_cons]
      constructor
      · rintro (hfs | ⟨i, hi, rfl⟩)
        · exact Or.inl hfs
        · exact Or.inr ⟨i, Or.inr hi, rfl⟩
      · rintro (hfs | ⟨i, rfl | hi, rfl⟩)
        · exact Or.inl hfs
        · exact Or.inl hex
        · exact Or.inr ⟨i, hi, rfl⟩
    · rw [if_neg hex]
      obtain ⟨img, himg⟩ := Option.isSome_iff_exists.mp (hr (angle_of j))
      rw [himg]
      refine ⟨(ih _ (tot + 1) skip).1, fun n => ?_⟩
      rw [(ih _ (tot + 1) skip).2 n]
      rw [fsExists_fsSet]
      simp only [Bool.or_eq_true, decide_eq_true_eq, List.mem_cons]
      constructor
      · rintro ((rfl | hfs) | ⟨i, hi, rfl⟩)
        · exact Or.inr ⟨j, Or.inl rfl, rfl⟩
        · exact Or.inl hfs
        · exact Or.inr ⟨i, Or.inr hi, rfl⟩
      · rintro (hfs | ⟨i, rfl | hi, rfl⟩)
        · exact Or.inl (Or.inr hfs)
        · exact Or.inl (Or.inl rfl)
        · exact Or.inr ⟨i, hi, rfl⟩

/-- Claim C3.  On a fresh renders directory with every render call
succeeding, one run of the turntable loop produces exactly 36 pairwise
distinct frame names: the frame list has length 36 with no duplicates,
the 36 angles are 0, 10, ..., 350 as round(i * 360 / 36), and the final
directory holds a file exactly under those names. -/
theorem render_loop_frame_set (render : Nat → Option Content) (model_name : FName)
    (hr : ∀ a, (render a).isSome = true) :
    (frame_names model_name).length = 36 ∧
    (frame_names model_name).Nodup ∧
    (∀ i, angle_of i = 10 * i) ∧
    ∀ n, fsExists (render_loop render model_name []).fs n = true ↔
      n ∈ frame_names model_name := by
  refine ⟨by simp [frame_names, steps], frame_names_nodup model_name, angle_of_eq,
    fun n => ?_⟩
  rw [render_loop,
    (render_loop_aux_success render model_name hr (List.range steps) [] 0 0).2 n]
  simp only [fsExists, fsGet, Option.isSome_none, Bool.false_eq_true, false_or]
  constructor
  · rintro ⟨i, hi, rfl⟩
    exact List.mem_map.mpr ⟨i, hi, rfl⟩
  · intro hmem
    obtain ⟨i, hi, rfl⟩ := List.mem_map.mp hmem
    exact ⟨i, hi, rfl⟩

/-- Witness for C3: with a render call that always produces a one-byte
image and a three-letter model name, the run from the empty directory
satisfies the conclusion. -/
theorem render_loop_frame_set_witness :
    (frame_names ['a', 'b', 'c']).length = 36 ∧
    (frame_names ['a', 'b', 'c']).Nodup ∧
    (∀ i, angle_of i = 10 * i) ∧
    ∀ n, fsExists (render_loop (fun _ => some [0]) ['a', 'b', 'c'] []).fs n = true ↔
      n ∈ frame_names ['a', 'b', 'c'] :=
  render_loop_frame_set (fun _ => some [0]) ['a', 'b', 'c'] (fun _ => rfl)

/-- Result of one per-file orchestration as seen by the batch loop of
process_directory: process_file returned True, returned False, or raised
an exception that escaped it. -/
inductive POutcome where
  | ok (success : Bool)
  | exc
deriving DecidableEq

/-- Embedding of the batch loop of process_directory (lines 320-331)
over the list of enumerated supported files.  The per-file orchestration
is a parameter mapping the current directory state and file to the
mutated state and an outcome, covering every behaviour process_file can
have, including raising.  A True return increments processed; a False
return or a caught exception increments skipped and the loop moves to
the next file. -/
def process_directory (pf : FS → FName → FS × POutcome) :
    List FName → FS → Nat → Nat → FS × Nat × Nat
  | [], fs, processed, skipped => (fs, processed, skipped)
  | f :: rest, fs, processed, skipped =>
    match pf fs f with
    | (fs2, POutcome.ok true) => process_directory pf rest fs2 (processed + 1) skipped
    | (fs2, POutcome.ok false) => process_directory pf rest fs2 processed (skipped + 1)
    | (fs2, POutcome.exc) => process_directory pf rest fs2 processed (skipped + 1)

/-- Every enumerated file contributes exactly one increment to one of
the two counters: the loop never aborts early, whatever the per-file
outcomes are. -/
lemma process_directory_count (pf : FS → FName → FS × POutcome) :
    ∀ (files : List FName) (fs : FS) (p s : Nat),
      (process_directory pf files fs p s).2.1 + (process_directory pf files fs p s).2.2 =
        p + s + files.length := by
  intro files
  induction files with
  | nil => intro fs p s; simp [process_directory]
  | cons f rest ih =>
    intro fs p s
    simp only [process_directory]
    rcases hpf : pf fs f with ⟨fs2, (_ | _) | _⟩
    · rw [ih]
      simp only [List.length_cons]
      omega
    · rw [ih]
      simp only [List.length_cons]
      omega
    · rw [ih]
      simp only [List.length_cons]
      omega

/-- Claim C4.  An exception raised by one file's per-file orchestration
is caught inside the batch loop: the loop on that file equals the loop
on the remaining files with the failure counter incremented and the
directory state the orchestration left behind, so no exception
propagates out of the loop, and every file of the batch still
contributes exactly one processed-or-skipped increment. -/
theorem process_directory_isolates_failures (pf : FS → FName → FS × POutcome)
    (fs fs2 : FS) (f : FName) (rest : List FName) (p s : Nat)
    (h : pf fs f = (fs2, POutcome.exc)) :
    process_directory pf (f :: rest) fs p s = process_directory pf rest fs2 p (s + 1) ∧
    ∀ (files : List FName) (fs0 : FS) (p0 s0 : Nat),
      (process_directory pf files fs0 p0 s0).2.1 +
          (process_directory pf files fs0 p0 s0).2.2 =
        p0 + s0 + files.length := by
  constructor
  · simp only [process_directory, h]
  · exact process_directory_count pf

/-- Witness for C4: a per-file orchestration that always raises, applied
to a two-file batch, satisfies the hypothesis on the first file. -/
theorem process_directory_isolates_failures_witness :
    process_directory (fun fs _ => (fs, POutcome.exc)) [['a'], ['b']] [] 0 0 =
        process_directory (fun fs _ => (fs, POutcome.exc)) [['b']] [] 0 1 ∧
    ∀ (files : List FName) (fs0 : FS) (p0 s0 : Nat),
      (process_directory (fun fs _ => (fs, POutcome.exc)) files fs0 p0 s0).2.1 +
          (process_directory (fun fs _ => (fs, POutcome.exc)) files fs0 p0 s0).2.2 =
        p0 + s0 + files.length :=
  process_directory_isolates_failures (fun fs _ => (fs, POutcome.exc)) [] [] ['a']
    [['b']] 0 0 rfl

/-- Exit status of one run of the script on a directory.  Modelled from
the source: main (lines 342-356) calls process_directory and returns
None in every branch, no branch calls sys.exit, and process_directory
swallows per-file exceptions, so the interpreter always terminates the
run normally, which is exit status 0. -/
def main_exit_status (pf : FS → FName → FS × POutcome) (files : List FName)
    (fs : FS) : Nat :=
  match process_directory pf files fs 0 0 with
  | (_, _, _) => 0

/-- Counterexample to claim C9 as stated.  A one-file run whose single
file raises (one failure counted) terminates with the same exit status
as a run of the same file in which the orchestration succeeds, so the
exit status does not distinguish a run with failures from a run without:
the failure is visible only in the skipped counter of the summary. -/
theorem exit_status_counterexample :
    main_exit_status (fun fs _ => (fs, POutcome.exc)) [['a']] [] =
        main_exit_status (fun fs _ => (fs, POutcome.ok true)) [['a']] [] ∧
    (process_directory (fun fs _ => (fs, POutcome.exc)) [['a']] [] 0 0).2.2 = 1 ∧
    (process_directory (fun fs _ => (fs, POutcome.ok true)) [['a']] [] 0 0).2.2 = 0 := by
  exact ⟨rfl, rfl, rfl⟩

/-- Claim C9, amended.  The process exit status after a directory run is
0 whether or not any enumerated file failed: main never calls sys.exit
and returns normally on every path, so a run with failures terminates
with the same exit status as a fully successful run, and only the
aggregate counters of the printed summary reflect the failures. -/
theorem exit_status_always_zero (pf : FS → FName → FS × POutcome)
    (files : List FName) (fs : FS) : main_exit_status pf files fs = 0 := by
  rw [main_exit_status]

/-- World-space vertex position, with the floating point coordinates of
the source embedded as exact rationals. -/
abbrev Vec3 := ℚ × ℚ × ℚ

/-- Minimum of a list of coordinates, embedding the builtin min over a
generator (lines 106-108); the source guards against the empty list
before this point, so the value on [] is irrelevant and fixed to 0. -/
def list_min : List ℚ → ℚ
  | [] => 0
  | x :: xs => xs.foldl min x

/-- Maximum of a list of coordinates, embedding the builtin max over a
generator (lines 109-111). -/
def list_max : List ℚ → ℚ
  | [] => 0
  | x :: xs => xs.foldl max x

/-- Componentwise minimum corner of the bounding box (lines 106-108). -/
def min_co (coords : List Vec3) : Vec3 :=
  (list_min (coords.map fun v => v.1), list_min (coords.map fun v => v.2.1),
    list_min (coords.map fun v => v.2.2))

/-- Componentwise maximum corner of the bounding box (lines 109-111). -/
def max_co (coords : List Vec3) : Vec3 :=
  (list_max (coords.map fun v => v.1), list_max (coords.map fun v => v.2.1),
    list_max (coords.map fun v => v.2.2))

/-- Center of the model, the midpoint of the two corners (line 113). -/
def center (coords : List Vec3) : Vec3 :=
  (((min_co coords).1 + (max_co coords).1) / 2,
    ((min_co coords).2.1 + (max_co coords).2.1) / 2,
    ((min_co coords).2.2 + (max_co coords).2.2) / 2)

/-- Effect of the re-centering loop (lines 123-124) on the world-space
vertex set: subtracting center from each imported root object's location
translates that object's world matrix by -center, so every world-space
vertex position shifts by -center. -/
def recenter (coords : List Vec3) : List Vec3 :=
  coords.map fun v =>
    (v.1 - (center coords).1, v.2.1 - (center coords).2.1, v.2.2 - (center coords).2.2)

lemma foldl_min_sub (c : ℚ) :
    ∀ (xs : List ℚ) (x : ℚ),
      (xs.map fun a => a - c).foldl min (x - c) = xs.foldl min x - c := by
  intro xs
  induction xs with
  | nil => intro x; rfl
  | cons a t ih =>
    intro x
    simp only [List.map_cons, List.foldl_cons]
    rw [min_sub_sub_right]
    exact ih (min x a)

lemma foldl_max_sub (c : ℚ) :
    ∀ (xs : List ℚ) (x : ℚ),
      (xs.map fun a => a - c).foldl max (x - c) = xs.foldl max x - c := by
  intro xs
  induction xs with
  | nil => intro x; rfl
  | cons a t ih =>
    intro x
    simp only [List.map_cons, List.foldl_cons]
    rw [max_sub_sub_right]
    exact ih (max x a)

lemma foldl_min_le_foldl_max :
    ∀ (xs : List ℚ) (x y : ℚ), x ≤ y → xs.foldl min x ≤ xs.foldl max y := by
  intro xs
  induction xs with
  | nil => intro x y h; exact h
  | cons a t ih =>
    intro x y h
    simp only [List.foldl_cons]
    exact ih _ _ (le_trans (min_le_left x a) (le_trans h (le_max_left y a)))

lemma list_min_le_list_max (l : List ℚ) (h : l ≠ []) : list_min l ≤ list_max l := by
  cases l with
  | nil => exact absurd rfl h
  | cons x xs => exact foldl_min_le_foldl_max xs x x le_rfl

lemma list_min_map_sub (l : List ℚ) (c : ℚ) (h : l ≠ []) :
    list_min (l.map fun a => a - c) = list_min l - c := by
  cases l with
  | nil => exact absurd rfl h
  | cons x xs =>
    simp only [List.map_cons, list_min]
    exact foldl_min_sub c xs x

lemma list_max_map_sub (l : List ℚ) (c : ℚ) (h : l ≠ []) :
    list_max (l.map fun a => a - c) = list_max l - c := by
  cases l with
  | nil => exact absurd rfl h
  | cons x xs =>
    simp only [List.map_cons, list_max]
    exact foldl_max_sub c xs x

lemma recentered_sym (l : List ℚ) (h : l ≠ []) :
    list_min (l.map fun a => a - (list_min l + list_max l) / 2) =
      -(list_max (l.map fun a => a - (list_min l + list_max l) / 2)) := by
  rw [list_min_map_sub l _ h, list_max_map_sub l _ h]
  ring

/-- Claim C8.  For every non-empty vertex set, the computed center lies
componentwise inside the axis-aligned bounding box, and after
subtracting the center from every position the recomputed minimum
corner is the componentwise negation of the recomputed maximum corner,
in exact arithmetic. -/
theorem scene_center_in_bbox_and_symmetric (coords : List Vec3) (h : coords ≠ []) :
    ((min_co coords).1 ≤ (center coords).1 ∧ (center coords).1 ≤ (max_co coords).1) ∧
    ((min_co coords).2.1 ≤ (center coords).2.1 ∧
      (center coords).2.1 ≤ (max_co coords).2.1) ∧
    ((min_co coords).2.2 ≤ (center coords).2.2 ∧
      (center coords).2.2 ≤ (max_co coords).2.2) ∧
    min_co (recenter coords) =
      (-(max_co (recenter coords)).1, -(max_co (recenter coords)).2.1,
        -(max_co (recenter coords)).2.2) := by
  have h1 : coords.map (fun v : Vec3 => v.1) ≠ [] := by simpa using h
  have h2 : coords.map (fun v : Vec3 => v.2.1) ≠ [] := by simpa using h
  have h3 : coords.map (fun v : Vec3 => v.2.2) ≠ [] := by simpa using h
  have hx := list_min_le_list_max _ h1
  have hy := list_min_le_list_max _ h2
  have hz := list_min_le_list_max _ h3
  have e1 : (recenter coords).map (fun v : Vec3 => v.1) =
      (coords.map fun v : Vec3 => v.1).map
        (fun a => a - (list_min (coords.map fun v : Vec3 => v.1) +
          list_max (coords.map fun v : Vec3 => v.1)) / 2) := by
    simp only [recenter, List.map_map]
    rfl
  have e2 : (recenter coords).map (fun v : Vec3 => v.2.1) =
      (coords.map fun v : Vec3 => v.2.1).map
        (fun a => a - (list_min (coords.map fun v : Vec3 => v.2.1) +
          list_max (coords.map fun v : Vec3 => v.2.1)) / 2) := by
    simp only [recenter, List.map_map]
    rfl
  have e3 : (recenter coords).map (fun v : Vec3 => v.2.2) =
      (coords.map fun v : Vec3 => v.2.2).map
        (fun a => a - (list_min (coords.map fun v : Vec3 => v.2.2) +
          list_max (coords.map fun v : Vec3 => v.2.2)) / 2) := by
    simp only [recenter, List.map_map]
    rfl
  refine ⟨⟨?_, ?_⟩, ⟨?_, ?_⟩, ⟨?_, ?_⟩, ?_⟩
  · simp only [center, min_co, max_co]
    linarith
  · simp only [center, min_co, max_co]
    linarith
  · simp only [center, min_co, max_co]
    linarith
  · simp only [center, min_co, max_co]
    linarith
  · simp only [center, min_co, max_co]
    linarith
  · simp only [center, min_co, max_co]
    linarith
  · have g1 := recentered_sym _ h1
    have g2 := recentered_sym _ h2
    have g3 := recentered_sym _ h3
    simp only [min_co, max_co, center, e1, e2, e3]
    exact Prod.ext g1 (Prod.ext g2 g3)

/-- Witness for C8: a concrete two-vertex set satisfies the non-empty
hypothesis, and the theorem applies to it. -/
theorem scene_center_in_bbox_and_symmetric_witness :
    ((min_co [((1 : ℚ), (2 : ℚ), (3 : ℚ)), (5, 0, 1)]).1 ≤
        (center [((1 : ℚ), (2 : ℚ), (3 : ℚ)), (5, 0, 1)]).1 ∧
      (center [((1 : ℚ), (2 : ℚ), (3 : ℚ)), (5, 0, 1)]).1 ≤
        (max_co [((1 : ℚ), (2 : ℚ), (3 : ℚ)), (5, 0, 1)]).1) ∧
    ((min_co [((1 : ℚ), (2 : ℚ), (3 : ℚ)), (5, 0, 1)]).2.1 ≤
        (center [((1 : ℚ), (2 : ℚ), (3 : ℚ)), (5, 0, 1)]).2.1 ∧
      (center [((1 : ℚ), (2 : ℚ), (3 : ℚ)), (5, 0, 1)]).2.1 ≤
        (max_co [((1 : ℚ), (2 : ℚ), (3 : ℚ)), (5, 0, 1)]).2.1) ∧
    ((min_co [((1 : ℚ), (2 : ℚ), (3 : ℚ)), (5, 0, 1)]).2.2 ≤
        (center [((1 : ℚ), (2 : ℚ), (3 : ℚ)), (5, 0, 1)]).2.2 ∧
      (center [((1 : ℚ), (2 : ℚ), (3 : ℚ)), (5, 0, 1)]).2.2 ≤
        (max_co [((1 : ℚ), (2 : ℚ), (3 : ℚ)), (5, 0, 1)]).2.2) ∧
    min_co (recenter [((1 : ℚ), (2 : ℚ), (3 : ℚ)), (5, 0, 1)]) =
      (-(max_co (recenter [((1 : ℚ), (2 : ℚ), (3 : ℚ)), (5, 0, 1)])).1,
        -(max_co (recenter [((1 : ℚ), (2 : ℚ), (3 : ℚ)), (5, 0, 1)])).2.1,
        -(max_co (recenter [((1 : ℚ), (2 : ℚ), (3 : ℚ)), (5, 0, 1)])).2.2) :=
  scene_center_in_bbox_and_symmetric [((1 : ℚ), (2 : ℚ), (3 : ℚ)), (5, 0, 1)]
    (List.cons_ne_nil _ _)

/-- Field of view of the camera, embedding line 164: the lens focal
length is fixed to 50 (line 159) and the sensor width to 36mm. -/
noncomputable def fov : ℝ := 2 * Real.arctan (36 / (2 * 50))

/-- Unclamped camera distance of line 165. -/
noncomputable def camera_distance_raw (max_dim : ℝ) : ℝ :=
  (max_dim * 0.6) / Real.tan (fov / 2)

/-- Camera distance after the minimum-distance clamp of line 166. -/
noncomputable def camera_distance (max_dim : ℝ) : ℝ :=
  max (camera_distance_raw max_dim) 3.5

/-- Maximum model dimension after the normalization block of lines
140-152: a strictly positive dimension is overwritten with the target
size 2.0 after the rescale, a non-positive one is left as it is. -/
noncomputable def normalized_max_dim (max_dim : ℝ) : ℝ :=
  if max_dim > 0 then 2 else max_dim

lemma tan_fov_half : Real.tan (fov / 2) = 9 / 25 := by
  have h : fov / 2 = Real.arctan (9 / 25) := by
    rw [fov]
    norm_num
  rw [h, Real.tan_arctan]

lemma camera_distance_closed (m : ℝ) : camera_distance m = max (m * (5 / 3)) (7 / 2) := by
  rw [camera_distance, camera_distance_raw, tan_fov_half]
  norm_num
  congr 1
  ring

/-- Claim C6.  The camera distance is the formula
(maxDimension * 0.6) / tan(fov / 2) with fov = 2 * atan(36 / (2 * 50)),
clamped from below to the fixed minimum 3.5, and therefore equals
max(maxDimension * 5/3, 7/2), is at least 7/2 and strictly positive for
every maxDimension, degenerate near-zero sizes included. -/
theorem camera_distance_formula_spec (m : ℝ) :
    camera_distance m = max ((m * 0.6) / Real.tan (fov / 2)) 3.5 ∧
    camera_distance m = max (m * (5 / 3)) (7 / 2) ∧
    (7 / 2 : ℝ) ≤ camera_distance m ∧
    0 < camera_distance m := by
  refine ⟨rfl, camera_distance_closed m, ?_, ?_⟩
  · rw [camera_distance_closed m]
    exact le_max_right _ _
  · rw [camera_distance_closed m]
    exact lt_of_lt_of_le (by norm_num) (le_max_right _ _)

/-- Counterexample to claim C7 as stated.  The derived camera distance
is not strictly increasing in maxDimension over maxDimension > 0: the
dimensions 1 and 2 are both positive and ordered, yet the clamp floors
both distances to the same value. -/
theorem camera_distance_strict_mono_counterexample :
    (0 : ℝ) < 1 ∧ (1 : ℝ) < 2 ∧ camera_distance 1 = camera_distance 2 := by
  refine ⟨by norm_num, by norm_num, ?_⟩
  rw [camera_distance_closed, camera_distance_closed]
  rw [max_eq_right (by norm_num), max_eq_right (by norm_num)]

/-- Claim C7, amended.  The derived camera distance is monotone
non-decreasing in maxDimension, strictly increasing once the formula
exceeds the 3.5 clamp floor (from maxDimension 21/10 on), and for every
maxDimension > 0 the model's extent subtends less than the camera's full
field of view at the derived distance, so the framing never clips at the
chosen margin. -/
theorem camera_distance_mono_and_in_frame :
    (∀ m1 m2 : ℝ, m1 ≤ m2 → camera_distance m1 ≤ camera_distance m2) ∧
    (∀ m1 m2 : ℝ, 21 / 10 ≤ m1 → m1 < m2 → camera_distance m1 < camera_distance m2) ∧
    (∀ m : ℝ, 0 < m → 2 * Real.arctan ((m / 2) / camera_distance m) < fov) := by
  refine ⟨?_, ?_, ?_⟩
  · intro m1 m2 h
    rw [camera_distance_closed, camera_distance_closed]
    exact max_le_max (by nlinarith) le_rfl
  · intro m1 m2 h1 h12
    rw [camera_distance_closed, camera_distance_closed]
    have e1 : max (m1 * (5 / 3)) (7 / 2) = m1 * (5 / 3) :=
      max_eq_left (by nlinarith)
    have e2 : max (m2 * (5 / 3)) (7 / 2) = m2 * (5 / 3) :=
      max_eq_left (by nlinarith)
    rw [e1, e2]
    nlinarith
  · intro m hm
    have hpos : (0 : ℝ) < camera_distance m :=
      lt_of_lt_of_le (by norm_num)
        ((camera_distance_closed m).symm ▸ le_max_right (m * (5 / 3)) (7 / 2))
    have hge : m * (5 / 3) ≤ camera_distance m :=
      (camera_distance_closed m).symm ▸ le_max_left (m * (5 / 3)) (7 / 2)
    have hlt : (m / 2) / camera_distance m < 9 / 25 := by
      have hq : (m / 2) / camera_distance m ≤ (m / 2) / (m * (5 / 3)) := by
        apply div_le_div_of_nonneg_left (by linarith) (by nlinarith) hge
      have he : (m / 2) / (m * (5 / 3)) = 3 / 10 := by
        field_simp
        ring
      rw [he] at hq
      linarith
    have harc : Real.arctan ((m / 2) / camera_distance m) < Real.arctan (9 / 25) :=
      Real.arctan_strictMono hlt
    have hfov : fov = 2 * Real.arctan (9 / 25) := by
      rw [fov]
      norm_num
    rw [hfov]
    linarith

/-- Witness for C7 (amended): the monotonicity, the strict growth above
the clamp floor, and the in-frame bound hold at the concrete dimensions
1, 21/10 and 3. -/
theorem camera_distance_mono_and_in_frame_witness :
    camera_distance 1 ≤ camera_distance 2 ∧
    camera_distance (21 / 10) < camera_distance 3 ∧
    2 * Real.arctan ((1 / 2) / camera_distance 1) < fov :=
  ⟨camera_distance_mono_and_in_frame.1 1 2 (by norm_num),
    camera_distance_mono_and_in_frame.2.1 (21 / 10) 3 (by norm_num) (by norm_num),
    camera_distance_mono_and_in_frame.2.2 1 (by norm_num)⟩

/-- Claim C10.  Every model that reaches camera setup gets the clamp
floor 3.5 as its camera distance: the normalizer overwrites a positive
maxDimension with 2.0, for which the raw formula gives 10/3 < 7/2, and a
non-positive maxDimension keeps a non-positive raw distance, so the
clamp yields 7/2 in both cases; in particular the raw distance at the
normalized size 2 is exactly 10/3 and at size 0 exactly 0. -/
theorem camera_distance_always_clamped (m : ℝ) :
    camera_distance (normalized_max_dim m) = 7 / 2 ∧
    camera_distance_raw 2 = 10 / 3 ∧
    camera_distance_raw 0 = 0 := by
  have hraw2 : camera_distance_raw 2 = 10 / 3 := by
    rw [camera_distance_raw, tan_fov_half]
    norm_num
  have hraw0 : camera_distance_raw 0 = 0 := by
    rw [camera_distance_raw, tan_fov_half]
    norm_num
  refine ⟨?_, hraw2, hraw0⟩
  rw [normalized_max_dim]
  by_cases hm : m > 0
  · rw [if_pos hm, camera_distance, hraw2]
    rw [max_eq_right (by norm_num)]
    norm_num
  · rw [if_neg hm, camera_distance]
    have hneg : camera_distance_raw m ≤ 0 := by
      rw [camera_distance_raw, tan_fov_half]
      push_neg at hm
      apply div_nonpos_of_nonpos_of_nonneg
      · nlinarith
      · norm_num
    rw [max_eq_right (by linarith [hneg])]
    norm_num

lemma resolve_step_terminal (hashFn : Content → FName) (fuel : Nat) (fs : FS)
    (p : FName) (c : Content) (hget : fsGet fs p = some c)
    (hname : (splitext p).1 = hashFn c) :
    process_file_resolve hashFn (fuel + 1) fs p = some (fs, p) := by
  simp only [process_file_resolve, hget]
  rw [if_pos hname]

lemma resolve_step_dedup (hashFn : Content → FName) (fuel : Nat) (fs : FS)
    (p : FName) (c ex : Content) (hget : fsGet fs p = some c)
    (hname : (splitext p).1 ≠ hashFn c)
    (hsame : hashFn c ++ (splitext p).2 ≠ p)
    (hex : fsGet fs (hashFn c ++ (splitext p).2) = some ex)
    (hmd : hashFn ex = hashFn c) :
    process_file_resolve hashFn (fuel + 1) fs p =
      process_file_resolve hashFn fuel (fsRemove fs p)
        (hashFn c ++ (splitext p).2) := by
  simp only [process_file_resolve, hget]
  rw [if_neg hname, if_neg hsame]
  simp only [hex]
  rw [if_pos hmd]

lemma resolve_step_fresh (hashFn : Content → FName) (fuel : Nat) (fs : FS)
    (p : FName) (c : Content) (hget : fsGet fs p = some c)
    (hname : (splitext p).1 ≠ hashFn c)
    (hsame : hashFn c ++ (splitext p).2 ≠ p)
    (hnone : fsGet fs (hashFn c ++ (splitext p).2) = none) :
    process_file_resolve hashFn (fuel + 1) fs p =
      process_file_resolve hashFn fuel
        (fsSet (fsRemove fs p) (hashFn c ++ (splitext p).2) c)
        (hashFn c ++ (splitext p).2) := by
  simp only [process_file_resolve, hget]
  rw [if_neg hname, if_neg hsame]
  simp only [hnone]

/-- Counterexample to claim C5 as stated.  Two byte-identical files
under the two different names a.stl and b.glb do not converge to a
single canonical file: resolving both ends with the two distinct files
h.stl and h.glb still present, because the deterministic target name
keeps each file's own extension, so the duplicate-delete branch is never
reached and the byte-identical duplicate is kept. -/
theorem resolve_two_names_counterexample :
    process_file_resolve (fun _ => ['h']) 2
        [(['a', '.', 's', 't', 'l'], [7]), (['b', '.', 'g', 'l', 'b'], [7])]
        ['a', '.', 's', 't', 'l'] =
      some ([(['h', '.', 's', 't', 'l'], [7]), (['b', '.', 'g', 'l', 'b'], [7])],
        ['h', '.', 's', 't', 'l']) ∧
    process_file_resolve (fun _ => ['h']) 2
        [(['h', '.', 's', 't', 'l'], [7]), (['b', '.', 'g', 'l', 'b'], [7])]
        ['b', '.', 'g', 'l', 'b'] =
      some ([(['h', '.', 'g', 'l', 'b'], [7]), (['h', '.', 's', 't', 'l'], [7])],
        ['h', '.', 'g', 'l', 'b']) ∧
    (['h', '.', 's', 't', 'l'] : FName) ≠ ['h', '.', 'g', 'l', 'b'] := by
  decide

/-- Claim C5, amended.  For two byte-identical files that are alone in a
directory under two different names sharing one extension, resolving the
first and then the second converges to the single canonical file named
by the shared content hash with that extension: the second resolution
finds the existing file at the target hash name, sees its hash match,
deletes the duplicate source and continues with the canonical file. -/
theorem resolve_same_ext_converges (hashFn : Content → FName) (b1 b2 e : FName)
    (c : Content)
    (hs1 : splitext (b1 ++ e) = (b1, e)) (hs2 : splitext (b2 ++ e) = (b2, e))
    (hb : b1 ≠ b2) (hhne : hashFn c ≠ [])
    (hhnd : ∀ ch ∈ hashFn c, ch ≠ '.') :
    ∃ fs1 p1,
      process_file_resolve hashFn 2 [(b1 ++ e, c), (b2 ++ e, c)] (b1 ++ e) =
        some (fs1, p1) ∧
      process_file_resolve hashFn 2 fs1 (b2 ++ e) =
        some ([(hashFn c ++ e, c)], hashFn c ++ e) := by
  have hn12 : b1 ++ e ≠ b2 ++ e := fun hh => hb (List.append_cancel_right hh)
  have he : e = [] ∨ ∃ t, e = '.' :: t ∧ ∀ ch ∈ t, ch ≠ '.' := by
    have hsh := splitext_ext_shape (b1 ++ e)
    rw [hs1] at hsh
    exact hsh
  have hsplit_h : splitext (hashFn c ++ e) = (hashFn c, e) :=
    splitext_base_ext (hashFn c) e hhne hhnd he
  have hget1 : fsGet [(b1 ++ e, c), (b2 ++ e, c)] (b1 ++ e) = some c := by
    simp [fsGet]
  have hget2 : fsGet [(b1 ++ e, c), (b2 ++ e, c)] (b2 ++ e) = some c := by
    simp [fsGet, hn12]
  by_cases hb1 : b1 = hashFn c
  · have hterm1 : process_file_resolve hashFn 2 [(b1 ++ e, c), (b2 ++ e, c)]
        (b1 ++ e) = some ([(b1 ++ e, c), (b2 ++ e, c)], b1 ++ e) :=
      resolve_step_terminal hashFn 1 _ _ c hget1 (by rw [hs1]; exact hb1)
    refine ⟨[(b1 ++ e, c), (b2 ++ e, c)], b1 ++ e, hterm1, ?_⟩
    have hb2 : ¬b2 = hashFn c := fun hh => hb (hb1.trans hh.symm)
    have htgt : hashFn c ++ (splitext (b2 ++ e)).2 = b1 ++ e := by
      rw [hs2, ← hb1]
    have hstep : process_file_resolve hashFn 2 [(b1 ++ e, c), (b2 ++ e, c)]
        (b2 ++ e) =
        process_file_resolve hashFn 1 (fsRemove [(b1 ++ e, c), (b2 ++ e, c)]
          (b2 ++ e)) (hashFn c ++ (splitext (b2 ++ e)).2) :=
      resolve_step_dedup hashFn 1 _ _ c c hget2 (by rw [hs2]; exact hb2)
        (by rw [htgt]; exact hn12) (by rw [htgt]; exact hget1) rfl
    have hrem : fsRemove [(b1 ++ e, c), (b2 ++ e, c)] (b2 ++ e) =
        [(b1 ++ e, c)] := by
      simp [fsRemove, hn12]
    have hterm2 : process_file_resolve hashFn 1 [(b1 ++ e, c)] (b1 ++ e) =
        some ([(b1 ++ e, c)], b1 ++ e) :=
      resolve_step_terminal hashFn 0 _ _ c (by simp [fsGet]) (by rw [hs1]; exact hb1)
    rw [hstep, hrem, htgt, hterm2, ← hb1]
  · by_cases hb2 : b2 = hashFn c
    · have htgt1 : hashFn c ++ (splitext (b1 ++ e)).2 = b2 ++ e := by
        rw [hs1, ← hb2]
      have hstep1 : process_file_resolve hashFn 2 [(b1 ++ e, c), (b2 ++ e, c)]
          (b1 ++ e) =
          process_file_resolve hashFn 1 (fsRemove [(b1 ++ e, c), (b2 ++ e, c)]
            (b1 ++ e)) (hashFn c ++ (splitext (b1 ++ e)).2) :=
        resolve_step_dedup hashFn 1 _ _ c c hget1 (by rw [hs1]; exact hb1)
          (by rw [htgt1]; exact fun hh => hn12 hh.symm) (by rw [htgt1]; exact hget2)
          rfl
      have hrem1 : fsRemove [(b1 ++ e, c), (b2 ++ e, c)] (b1 ++ e) =
          [(b2 ++ e, c)] := by
        simp [fsRemove, Ne.symm hn12]
      have hterm1 : process_file_resolve hashFn 1 [(b2 ++ e, c)] (b2 ++ e) =
          some ([(b2 ++ e, c)], b2 ++ e) :=
        resolve_step_terminal hashFn 0 _ _ c (by simp [fsGet])
          (by rw [hs2]; exact hb2)
      refine ⟨[(b2 ++ e, c)], b2 ++ e, ?_, ?_⟩
      · rw [hstep1, hrem1, htgt1, hterm1]
      · have hterm2 : process_file_resolve hashFn 2 [(b2 ++ e, c)] (b2 ++ e) =
            some ([(b2 ++ e, c)], b2 ++ e) :=
          resolve_step_terminal hashFn 1 _ _ c (by simp [fsGet])
            (by rw [hs2]; exact hb2)
        rw [hterm2, hb2]
    · have htne1 : hashFn c ++ e ≠ b1 ++ e := fun hh =>
        hb1 (List.append_cancel_right hh).symm
      have htne2 : hashFn c ++ e ≠ b2 ++ e := fun hh =>
        hb2 (List.append_cancel_right hh).symm
      have htgt1 : hashFn c ++ (splitext (b1 ++ e)).2 = hashFn c ++ e := by
        rw [hs1]
      have hnone : fsGet [(b1 ++ e, c), (b2 ++ e, c)] (hashFn c ++ e) = none := by
        simp [fsGet, Ne.symm htne1, Ne.symm htne2]
      have hstep1 : process_file_resolve hashFn 2 [(b1 ++ e, c), (b2 ++ e, c)]
          (b1 ++ e) =
          process_file_resolve hashFn 1
            (fsSet (fsRemove [(b1 ++ e, c), (b2 ++ e, c)] (b1 ++ e))
              (hashFn c ++ (splitext (b1 ++ e)).2) c)
            (hashFn c ++ (splitext (b1 ++ e)).2) :=
        resolve_step_fresh hashFn 1 _ _ c hget1 (by rw [hs1]; exact hb1)
          (by rw [htgt1]; exact htne1) (by rw [htgt1]; exact hnone)
      have hrem1 : fsRemove [(b1 ++ e, c), (b2 ++ e, c)] (b1 ++ e) =
          [(b2 ++ e, c)] := by
        simp [fsRemove, Ne.symm hn12]
      have hset1 : fsSet [(b2 ++ e, c)] (hashFn c ++ e) c =
          [(hashFn c ++ e, c), (b2 ++ e, c)] := by
        simp [fsSet, fsRemove, Ne.symm htne2]
      have hterm1 : process_file_resolve hashFn 1
          [(hashFn c ++ e, c), (b2 ++ e, c)] (hashFn c ++ e) =
          some ([(hashFn c ++ e, c), (b2 ++ e, c)], hashFn c ++ e) :=
        resolve_step_terminal hashFn 0 _ _ c (by simp [fsGet])
          (by rw [hsplit_h])
      refine ⟨[(hashFn c ++ e, c), (b2 ++ e, c)], hashFn c ++ e, ?_, ?_⟩
      · rw [hstep1, htgt1, hrem1, hset1, hterm1]
      · have hget2' : fsGet [(hashFn c ++ e, c), (b2 ++ e, c)] (b2 ++ e) =
            some c := by
          simp [fsGet, htne2]
        have htgt2 : hashFn c ++ (splitext (b2 ++ e)).2 = hashFn c ++ e := by
          rw [hs2]
        have hex2 : fsGet [(hashFn c ++ e, c), (b2 ++ e, c)] (hashFn c ++ e) =
            some c := by
          simp [fsGet]
        have hstep2 : process_file_resolve hashFn 2
            [(hashFn c ++ e, c), (b2 ++ e, c)] (b2 ++ e) =
            process_file_resolve hashFn 1
              (fsRemove [(hashFn c ++ e, c), (b2 ++ e, c)] (b2 ++ e))
              (hashFn c ++ (splitext (b2 ++ e)).2) :=
          resolve_step_dedup hashFn 1 _ _ c c hget2' (by rw [hs2]; exact hb2)
            (by rw [htgt2]; exact htne2) (by rw [htgt2]; exact hex2) rfl
        have hrem2 : fsRemove [(hashFn c ++ e, c), (b2 ++ e, c)] (b2 ++ e) =
            [(hashFn c ++ e, c)] := by
          simp [fsRemove, htne2]
        have hterm2 : process_file_resolve hashFn 1 [(hashFn c ++ e, c)]
            (hashFn c ++ e) = some ([(hashFn c ++ e, c)], hashFn c ++ e) :=
          resolve_step_terminal hashFn 0 _ _ c (by simp [fsGet])
            (by rw [hsplit_h])
        rw [hstep2, htgt2, hrem2, hterm2]

/-- Witness for C5 (amended): two one-letter base names with the shared
extension .stl and a dot-free one-letter hash satisfy every hypothesis,
and the two resolutions converge to the single canonical file there. -/
theorem resolve_same_ext_converges_witness :
    ∃ fs1 p1,
      process_file_resolve (fun _ => ['h']) 2
          [(['a'] ++ ['.', 's', 't', 'l'], [7]), (['b'] ++ ['.', 's', 't', 'l'], [7])]
          (['a'] ++ ['.', 's', 't', 'l']) = some (fs1, p1) ∧
      process_file_resolve (fun _ => ['h']) 2 fs1 (['b'] ++ ['.', 's', 't', 'l']) =
        some ([((fun _ : Content => ['h']) [7] ++ ['.', 's', 't', 'l'], [7])],
          (fun _ : Content => ['h']) [7] ++ ['.', 's', 't', 'l']) :=
  resolve_same_ext_converges (fun _ => ['h']) ['a'] ['b'] ['.', 's', 't', 'l'] [7]
    (by decide) (by decide) (by decide) (by decide) (by decide)

end Render360
